import Mathlib

/-!
Verification development for `create_standalone.py`, a tool that bundles a
multi-file web application into one standalone HTML file.

Text is modelled as `List Char` (`Str`), so every definition is executable
and kernel-reducible.  Pure Python code is translated directly; external
collaborators (the terser subprocess, the HTTP client, the filesystem and
the stdlib HTML tokenizer) are modelled as explicit function parameters or
as clearly documented collaborator models.
-/

/-- Text: Python strings modelled as lists of characters. -/
abbrev Str := List Char

/-- The apostrophe character, used by `strip('\x27"')` in `replace_font_url`. -/
def squote : Char := Char.ofNat 39

/-- Python `\s` for the ASCII range: the whitespace class used by the
`re` patterns in the source. -/
def isPySpace (c : Char) : Bool :=
  c = ' ' || c = '\t' || c = '\n' || c = '\r' || c = Char.ofNat 11 || c = Char.ofNat 12

/-- Python `str.lower()` (ASCII fragment, which is all the source relies on). -/
def lowerStr (s : Str) : Str := s.map Char.toLower

/-- Strip a known prefix, returning the remainder when it is present. -/
def dropPrefix? (p s : Str) : Option Str :=
  if p.isPrefixOf s then some (s.drop p.length) else none

/-- Python `str.replace(old, new)` for an empty `old`: the replacement is
inserted before every character and at the end. -/
def interleave (r : Str) : Str → Str
  | [] => r
  | c :: cs => r ++ c :: interleave r cs

/-- Python `str.replace(old, new)` for a non-empty `old`: replace every
non-overlapping occurrence, scanning left to right (fuel-based recursion;
with `p` non-empty every step consumes at least one character, so fuel equal
to the length of the text suffices). -/
def replaceAllF (p r : Str) : Nat → Str → Str
  | 0, _ => []
  | _ + 1, [] => []
  | fuel + 1, c :: cs =>
    if p.isPrefixOf (c :: cs) then r ++ replaceAllF p r fuel ((c :: cs).drop p.length)
    else c :: replaceAllF p r fuel cs

/-- Python `str.replace(old, new)` (no count argument: all occurrences). -/
def replaceAll (p r s : Str) : Str :=
  if p = [] then interleave r s else replaceAllF p r s.length s

/-- Python `old in s` substring test, by the same left-to-right scan as
`replaceAllNE`. -/
def occursIn (p : Str) : Str → Bool
  | [] => p.isPrefixOf []
  | c :: cs => p.isPrefixOf (c :: cs) || occursIn p cs

/-!
## `_ScriptExtractor`

The repository subclasses Python's `html.parser.HTMLParser` and overrides six
handler methods.  The stdlib tokenizer is an external collaborator: it is
modelled by the event type `HtmlEvent` (the arguments the tokenizer passes to
the handlers) plus, further below, an executable collaborator model
`tokenize` used to run the pipeline on concrete documents.
-/

/-- One callback from the stdlib HTML tokenizer to the `_ScriptExtractor`
handler methods.  Attribute values may be absent (`None` in Python). -/
inductive HtmlEvent where
  | startTag (tag : Str) (attrs : List (Str × Option Str))
  | endTag (tag : Str)
  | data (s : Str)
  | comment (s : Str)
  | entityref (name : Str)
  | charref (name : Str)
deriving DecidableEq

/-- The mutable fields of `_ScriptExtractor`. -/
structure ExtState where
  collect : Bool
  hasSrc : Bool
  buffer : List Str
  scripts : List Str
deriving DecidableEq

/-- `_ScriptExtractor.__init__`. -/
def extInit : ExtState := ⟨false, false, [], []⟩

/-- The `"src" in attrs_dict` test of `handle_starttag`: the dict keys are the
lowercased attribute names. -/
def hasSrcAttr (attrs : List (Str × Option Str)) : Bool :=
  attrs.any (fun a => lowerStr a.fst = ("src").toList)

/-- Whether an event is a `<script>` start or end tag (compared
case-insensitively, as the handlers do). -/
def isScriptTagEv : HtmlEvent → Bool
  | .startTag t _ => lowerStr t = ("script").toList
  | .endTag t => lowerStr t = ("script").toList
  | _ => false

/-- The six handler methods of `_ScriptExtractor`, as one step function on the
extractor state. -/
def extStep (st : ExtState) : HtmlEvent → ExtState
  | .startTag tag attrs =>
    if lowerStr tag = ("script").toList then
      if hasSrcAttr attrs then { st with hasSrc := true, collect := false }
      else { st with hasSrc := false, collect := true, buffer := [] }
    else st
  | .endTag tag =>
    if lowerStr tag = ("script").toList then
      { collect := false, hasSrc := false, buffer := [],
        scripts :=
          if st.collect && !st.hasSrc then st.scripts ++ [st.buffer.flatten]
          else st.scripts }
    else st
  | .data d =>
    if st.collect && !st.hasSrc then { st with buffer := st.buffer ++ [d] } else st
  | .comment cdata =>
    if st.collect && !st.hasSrc then
      { st with buffer := st.buffer ++ [("<!--").toList ++ cdata ++ ("-->").toList] }
    else st
  | .entityref n =>
    if st.collect && !st.hasSrc then
      { st with buffer := st.buffer ++ ['&' :: (n ++ [';'])] }
    else st
  | .charref n =>
    if st.collect && !st.hasSrc then
      { st with buffer := st.buffer ++ ['&' :: '#' :: (n ++ [';'])] }
    else st

/-- Feed a list of tokenizer events to the extractor. -/
def runExtract (evs : List HtmlEvent) (st : ExtState) : ExtState :=
  evs.foldl extStep st

/-- The inner events that can occur between an inline script's open and close
tags: text, a comment, an entity reference, a numeric character reference. -/
inductive InnerEv where
  | text (s : Str)
  | comment (s : Str)
  | entity (name : Str)
  | charref (name : Str)
deriving DecidableEq

/-- View an inner event as a tokenizer callback. -/
def InnerEv.toEvent : InnerEv → HtmlEvent
  | .text s => .data s
  | .comment s => .comment s
  | .entity n => .entityref n
  | .charref n => .charref n

/-- The original source text an inner event stands for: comments re-wrapped as
`<!--...-->`, entity references as `&name;`, character references as
`&#code;`, plain text verbatim. -/
def InnerEv.render : InnerEv → Str
  | .text s => s
  | .comment s => ("<!--").toList ++ s ++ ("-->").toList
  | .entity n => '&' :: (n ++ [';'])
  | .charref n => '&' :: '#' :: (n ++ [';'])

/-!
## Collaborator model: the stdlib HTML tokenizer

`tokenize` models how `html.parser.HTMLParser` turns a document into handler
callbacks, for the constructs this tool feeds it: start tags with
double-quoted, single-quoted, unquoted or valueless attributes, end tags,
comments, plain text, and the CDATA mode entered for `<script>` elements
(inside which everything up to the next `</script` is delivered verbatim as
data).  It is a model of stdlib behaviour, not repository code; it exists so
the pipeline can be evaluated on concrete documents.
-/

/-- Characters allowed in a tag name by the tokenizer model. -/
def isTagNameChar (c : Char) : Bool :=
  c.isAlpha || c.isDigit || c = '-' || c = '_' || c = ':' || c = '.'

/-- Split a string at the first occurrence of `pat`, dropping `pat` itself. -/
def splitAtSub (pat : Str) : Str → Option (Str × Str)
  | [] => if pat.isPrefixOf [] then some ([], []) else none
  | c :: cs =>
    if pat.isPrefixOf (c :: cs) then some ([], (c :: cs).drop pat.length)
    else match splitAtSub pat cs with
      | some (b, a) => some (c :: b, a)
      | none => none

/-- Attribute-list parsing of the tokenizer model; returns the attributes and
the text after the closing `>`. -/
def parseAttrsF : Nat → Str → (List (Str × Option Str)) × Str
  | 0, s => ([], s)
  | fuel + 1, s =>
    let s1 := s.dropWhile isPySpace
    match s1 with
    | [] => ([], [])
    | '>' :: rest => ([], rest)
    | '/' :: rest => parseAttrsF fuel rest
    | _ =>
      let name := s1.takeWhile (fun c => !(isPySpace c) && c ≠ '=' && c ≠ '>' && c ≠ '/')
      if name.isEmpty then parseAttrsF fuel (s1.drop 1)
      else
        let s2 := (s1.drop name.length).dropWhile isPySpace
        match s2 with
        | '=' :: s4 =>
          let s5 := s4.dropWhile isPySpace
          match s5 with
          | '"' :: s6 =>
            let v := s6.takeWhile (fun c => c ≠ '"')
            let pr := parseAttrsF fuel (s6.drop (v.length + 1))
            ((name, some v) :: pr.fst, pr.snd)
          | c :: s6 =>
            if c = squote then
              let v := s6.takeWhile (fun x => x ≠ squote)
              let pr := parseAttrsF fuel (s6.drop (v.length + 1))
              ((name, some v) :: pr.fst, pr.snd)
            else
              let v := (c :: s6).takeWhile (fun x => !(isPySpace x) && x ≠ '>')
              let pr := parseAttrsF fuel ((c :: s6).drop v.length)
              ((name, some v) :: pr.fst, pr.snd)
          | [] => ([(name, some [])], [])
        | _ =>
          let pr := parseAttrsF fuel s2
          ((name, none) :: pr.fst, pr.snd)

/-- Does the text start with `</`, optional whitespace, then `script`
(case-insensitively)?  This is the pattern that ends CDATA mode. -/
def isScriptEndAt (s : Str) : Bool :=
  match s with
  | '<' :: '/' :: t => (("script").toList).isPrefixOf (lowerStr (t.dropWhile isPySpace))
  | _ => false

/-- Split script CDATA content from the `</script` that ends it. -/
def cdataSplit : Nat → Str → Str × Str
  | 0, s => (s, [])
  | _ + 1, [] => ([], [])
  | fuel + 1, c :: cs =>
    if isScriptEndAt (c :: cs) then ([], c :: cs)
    else
      let pr := cdataSplit fuel cs
      (c :: pr.fst, pr.snd)

/-- The tokenizer model proper (fuel-based recursion). -/
def tokF : Nat → Str → List HtmlEvent
  | 0, _ => []
  | _ + 1, [] => []
  | fuel + 1, c :: cs =>
    if (("<!--").toList).isPrefixOf (c :: cs) then
      match splitAtSub (("-->").toList) ((c :: cs).drop 4) with
      | some (cm, rest) => .comment cm :: tokF fuel rest
      | none => [.comment ((c :: cs).drop 4)]
    else if (("</").toList).isPrefixOf (c :: cs) then
      let name := ((c :: cs).drop 2).takeWhile isTagNameChar
      let rest := ((c :: cs).drop 2).drop name.length
      let rest2 := (rest.dropWhile (fun x => x ≠ '>')).drop 1
      .endTag name :: tokF fuel rest2
    else if c = '<' then
      match cs with
      | [] => [.data ['<']]
      | c2 :: _ =>
        if c2.isAlpha then
          let name := cs.takeWhile isTagNameChar
          let pr := parseAttrsF fuel (cs.drop name.length)
          if lowerStr name = ("script").toList then
            let dr := cdataSplit fuel pr.snd
            .startTag name pr.fst ::
              (if dr.fst.isEmpty then tokF fuel dr.snd
               else .data dr.fst :: tokF fuel dr.snd)
          else .startTag name pr.fst :: tokF fuel pr.snd
        else .data ['<'] :: tokF fuel cs
    else
      let d := (c :: cs).takeWhile (fun x => x ≠ '<')
      .data d :: tokF fuel ((c :: cs).drop d.length)

/-- Tokenize a document (collaborator model; see above). -/
def tokenize (s : Str) : List HtmlEvent := tokF (s.length + 1) s

/-- `_ScriptExtractor` applied to a document: the ordered contents of its
inline (no-`src`) `<script>` elements, as in `compress_inline_js`. -/
def extractScripts (html : Str) : List Str :=
  (runExtract (tokenize html) extInit).scripts

/-!
## `compress_js` and `compress_inline_js`

The terser subprocess is a collaborator: `none` models
`check_terser_exists()` returning `False`; `some run` models an available
tool, where `run s = none` is a non-zero exit and `run s = some out` is a
successful run writing `out` to stdout.
-/

/-- `compress_js`: returns the input unchanged when the tool is missing or
exits non-zero, otherwise the tool's stdout. -/
def compress_js (terser : Option (Str → Option Str)) (script : Str) : Str :=
  match terser with
  | none => script
  | some run =>
    match run script with
    | none => script
    | some out => out

/-- `compress_inline_js`: extract all inline script bodies, and for each one
whose compressed form differs, add its sizes to the ledger and substitute the
compressed body into the document with `str.replace` (all occurrences).
The ledger is the pair `(full_size, compressed_size)`. -/
def compress_inline_js (compress : Str → Str) (html : Str) (ledger : Nat × Nat) :
    Str × (Nat × Nat) :=
  (extractScripts html).foldl
    (fun acc script =>
      if compress script ≠ script then
        (replaceAll script (compress script) acc.fst,
         (acc.snd.fst + script.length, acc.snd.snd + (compress script).length))
      else acc)
    (html, ledger)

/-- Modelled from the spec: replace only the *first* occurrence of `p`
(`replace the first textual occurrence of the original script body`). This is
the spec's description of step 2, used to compare against the code. -/
def replaceFirst (p r : Str) : Str → Str
  | [] => []
  | c :: cs =>
    if p.isPrefixOf (c :: cs) then r ++ (c :: cs).drop p.length
    else c :: replaceFirst p r cs

/-- Modelled from the spec: `compress_inline_js` as §4.5 step 2 words it, with
first-occurrence-only substitution. -/
def compress_inline_js_specFirstOnly (compress : Str → Str) (html : Str)
    (ledger : Nat × Nat) : Str × (Nat × Nat) :=
  (extractScripts html).foldl
    (fun acc script =>
      if compress script ≠ script then
        (replaceFirst script (compress script) acc.fst,
         (acc.snd.fst + script.length, acc.snd.snd + (compress script).length))
      else acc)
    (html, ledger)

/-!
## `embed_fonts_in_css`

The filesystem is a collaborator: `resolve url = some (path, bytes)` models
`(base_dir / unquote(url)).resolve()` existing on disk with content `bytes`
(each a byte value), and `none` models a missing file.  The function itself
(query stripping, quote stripping, the `data:` prefix check, the MIME table,
base64 encoding and the rewritten `url('...')` text) is repository code and
is translated directly.
-/

/-- Python `str.strip('\x27"')`: remove leading and trailing quote
characters. -/
def stripQuotes (s : Str) : Str :=
  let q : Char → Bool := fun c => c = squote || c = '"'
  ((s.dropWhile q).reverse.dropWhile q).reverse

/-- The query-string strip of `replace_font_url`:
`if "?" in url: url = url.split('?')[0]`. -/
def stripQuery (s : Str) : Str :=
  if s.contains '?' then s.takeWhile (fun c => c ≠ '?') else s

/-- Percent-decoding, modelling `urllib.parse.unquote` at the byte level. -/
def pyUnquote : Str → Str
  | [] => []
  | '%' :: h1 :: h2 :: rest =>
    let hv : Char → Option Nat := fun c =>
      if c.isDigit then some (c.toNat - 48)
      else if 'a' ≤ c && c ≤ 'f' then some (c.toNat - 87)
      else if 'A' ≤ c && c ≤ 'F' then some (c.toNat - 55)
      else none
    match hv h1, hv h2 with
    | some a, some b => Char.ofNat (a * 16 + b) :: pyUnquote rest
    | _, _ => '%' :: pyUnquote (h1 :: h2 :: rest)
  | c :: cs => c :: pyUnquote cs

/-- `pathlib.Path.suffix` of a path string: the final component's extension,
with the dot, empty for dotless or dot-leading (hidden) names. -/
def pathSuffix (p : Str) : Str :=
  let base := (p.reverse.takeWhile (fun c => c ≠ '/')).reverse
  let revBase := base.reverse
  let ext := revBase.takeWhile (fun c => c ≠ '.')
  if ext.length = revBase.length then []
  else if ext.length + 1 = revBase.length then []
  else '.' :: ext.reverse

/-- `font_path.suffix.lower().lstrip('.')`. -/
def extOf (p : Str) : Str :=
  (lowerStr (pathSuffix p)).dropWhile (fun c => c = '.')

/-- The extension→MIME table of `replace_font_url`, with its
`application/octet-stream` default. -/
def mimeOf (ext : Str) : Str :=
  if ext = ("woff2").toList then ("font/woff2").toList
  else if ext = ("woff").toList then ("font/woff").toList
  else if ext = ("ttf").toList then ("font/ttf").toList
  else if ext = ("otf").toList then ("font/otf").toList
  else if ext = ("eot").toList then ("application/vnd.ms-fontobject").toList
  else if ext = ("svg").toList then ("image/svg+xml").toList
  else ("application/octet-stream").toList

/-- The base64 alphabet. -/
def b64Alphabet : Str :=
  ("ABCDEFGHIJKLMNOPQRSTUVWXYZabcdefghijklmnopqrstuvwxyz0123456789+/").toList

/-- One base64 output character. -/
def b64Char (n : Nat) : Char := b64Alphabet.getD n '='

/-- Standard base64 of a byte list, as `base64.b64encode`. -/
def b64Encode : List Nat → Str
  | [] => []
  | [a] => [b64Char (a / 4), b64Char ((a % 4) * 16), '=', '=']
  | [a, b] => [b64Char (a / 4), b64Char ((a % 4) * 16 + b / 16), b64Char ((b % 16) * 4), '=']
  | a :: b :: c :: rest =>
    b64Char (a / 4) :: b64Char ((a % 4) * 16 + b / 16) ::
      b64Char ((b % 16) * 4 + c / 64) :: b64Char (c % 64) :: b64Encode rest

/-- `replace_font_url`, the `re.sub` callback: `inner` is the capture of
`url\(([^)]+)\)` (so `match.group(0)` is `url(` ++ inner ++ `)`). -/
def replace_font_url (resolve : Str → Option (Str × List Nat)) (inner : Str) : Str :=
  let url := stripQuery (stripQuotes inner)
  if (("data:").toList).isPrefixOf url then ("url(").toList ++ inner ++ [')']
  else
    match resolve (pyUnquote url) with
    | none => ("url(").toList ++ inner ++ [')']
    | some (path, bytes) =>
      ("url(").toList ++ [squote] ++ ("data:").toList ++ mimeOf (extOf path) ++
        (";base64,").toList ++ b64Encode bytes ++ [squote, ')']

/-- The `re.sub(r"url\(([^)]+)\)", f, css)` scan: find each non-overlapping
`url(` ++ (one or more non-`)` characters) ++ `)` token left to right and
replace it by `f` of the capture. -/
def reSubUrlF (f : Str → Str) : Nat → Str → Str
  | 0, _ => []
  | _ + 1, [] => []
  | fuel + 1, c :: cs =>
    if (("url(").toList).isPrefixOf (c :: cs) then
      if ((c :: cs).drop 4).takeWhile (fun x => x ≠ ')') ≠ [] ∧
          (((c :: cs).drop 4).takeWhile (fun x => x ≠ ')')).length < ((c :: cs).drop 4).length then
        f (((c :: cs).drop 4).takeWhile (fun x => x ≠ ')')) ++
          reSubUrlF f fuel
            (((c :: cs).drop 4).drop ((((c :: cs).drop 4).takeWhile (fun x => x ≠ ')')).length + 1))
      else c :: reSubUrlF f fuel cs
    else c :: reSubUrlF f fuel cs

/-- The captures the same scan visits, in order (also the matches
`re.search(r"url\(([^)]+)\)", css)` would find). -/
def urlMatchesF : Nat → Str → List Str
  | 0, _ => []
  | _ + 1, [] => []
  | fuel + 1, c :: cs =>
    if (("url(").toList).isPrefixOf (c :: cs) then
      if ((c :: cs).drop 4).takeWhile (fun x => x ≠ ')') ≠ [] ∧
          (((c :: cs).drop 4).takeWhile (fun x => x ≠ ')')).length < ((c :: cs).drop 4).length then
        (((c :: cs).drop 4).takeWhile (fun x => x ≠ ')')) ::
          urlMatchesF fuel
            (((c :: cs).drop 4).drop ((((c :: cs).drop 4).takeWhile (fun x => x ≠ ')')).length + 1))
      else urlMatchesF fuel cs
    else urlMatchesF fuel cs

/-- All `url(...)` captures of a CSS text. -/
def urlMatches (css : Str) : List Str := urlMatchesF css.length css

/-- `embed_fonts_in_css` as a text transform: the file written to
`output_file` (and read back by `inline_css`) for the CSS text of
`css_file`. -/
def embed_fonts_in_css (resolve : Str → Option (Str × List Nat)) (css : Str) : Str :=
  reSubUrlF (replace_font_url resolve) css.length css

/-!
## `inline_css`

`re.findall(r'<link\s+rel="stylesheet"\s+href="([^"]+)"', html_content)` is
the find step (case-sensitive, attribute order fixed); the replace step is
`re.sub(rf'<link.*rel="stylesheet".*href="{css_file}".*>', ..., flags=IGNORECASE)`.
The stylesheet filesystem is the collaborator `fs` (resolve + exists + read).
-/

/-- Try the findall pattern at the current position: on success return the
`href` capture and the text after the match. -/
def matchLinkAt (s : Str) : Option (Str × Str) :=
  match dropPrefix? (("<link").toList) s with
  | none => none
  | some r1 =>
    if (r1.takeWhile isPySpace).isEmpty then none
    else
      match dropPrefix? (("rel=\"stylesheet\"").toList) (r1.dropWhile isPySpace) with
      | none => none
      | some r2 =>
        if (r2.takeWhile isPySpace).isEmpty then none
        else
          match dropPrefix? (("href=\"").toList) (r2.dropWhile isPySpace) with
          | none => none
          | some r3 =>
            if (r3.takeWhile (fun c => c ≠ '"')).isEmpty then none
            else if (r3.takeWhile (fun c => c ≠ '"')).length < r3.length then
              some (r3.takeWhile (fun c => c ≠ '"'),
                    r3.drop ((r3.takeWhile (fun c => c ≠ '"')).length + 1))
            else none

/-- The findall scan (fuel-based): leftmost, non-overlapping matches. -/
def findLinkHrefsF : Nat → Str → List Str
  | 0, _ => []
  | _ + 1, [] => []
  | fuel + 1, c :: cs =>
    match matchLinkAt (c :: cs) with
    | some (cap, rest) => cap :: findLinkHrefsF fuel rest
    | none => findLinkHrefsF fuel cs

/-- `re.findall(r'<link\s+rel="stylesheet"\s+href="([^"]+)"', html)`. -/
def findLinkHrefs (s : Str) : List Str := findLinkHrefsF s.length s

/-- Case-insensitive literal match of a pattern fragment (the `re.IGNORECASE`
flag on the replacement regex); returns the consumed length. -/
def matchLitCI (pat s : Str) : Option Nat :=
  if (lowerStr pat).isPrefixOf (lowerStr s) then some pat.length else none

/-- Match the file-name part of the interpolated `href="{css_file}"`
fragment followed by its closing `"`: the file name is substituted into the
pattern unescaped, so a `.` in it is a regex wildcard (any non-newline
character); other characters are literals under `IGNORECASE`. -/
def matchFileChars : Str → Str → Option Nat
  | [], rest =>
    match rest with
    | '"' :: _ => some 1
    | _ => none
  | pc :: ps, rest =>
    match rest with
    | [] => none
    | rc :: rs =>
      if (if pc = '.' then rc ≠ '\n' else pc.toLower = rc.toLower) then
        match matchFileChars ps rs with
        | some m => some (m + 1)
        | none => none
      else none

/-- Match the whole interpolated `href="{css_file}"` fragment of the
replacement regex. -/
def matchHrefFile (file : Str) (s : Str) : Option Nat :=
  match matchLitCI (("href=\"").toList) s with
  | none => none
  | some n =>
    match matchFileChars file (s.drop n) with
    | some m => some (n + m)
    | none => none

/-- Greedy `.*` followed by a continuation: try the longest gap (no newline)
first, backtracking to shorter ones, as the `re` engine does. -/
def dotStarThen (cont : Str → Option Nat) (s : Str) : Nat → Option Nat
  | 0 =>
    match cont s with
    | some n => some n
    | none => none
  | k + 1 =>
    if (s.take (k + 1)).contains '\n' then dotStarThen cont s k
    else
      match cont (s.drop (k + 1)) with
      | some n => some (k + 1 + n)
      | none => dotStarThen cont s k

/-- Total length of a match of `<link.*rel="stylesheet".*href="{file}".*>`
(with `IGNORECASE`) starting at this position, greedily as `re` would. -/
def matchLinkSubAt (file : Str) (s : Str) : Option Nat :=
  match matchLitCI (("<link").toList) s with
  | none => none
  | some n1 =>
    let t1 := s.drop n1
    match dotStarThen
        (fun u =>
          match matchLitCI (("rel=\"stylesheet\"").toList) u with
          | none => none
          | some n2 =>
            match dotStarThen
                (fun v =>
                  match matchHrefFile file v with
                  | none => none
                  | some n3 =>
                    match dotStarThen
                        (fun w =>
                          match w with
                          | '>' :: _ => some 1
                          | _ => none)
                        (v.drop n3) (v.drop n3).length with
                    | some n4 => some (n3 + n4)
                    | none => none)
                (u.drop n2) (u.drop n2).length with
            | some n3 => some (n2 + n3)
            | none => none)
        t1 t1.length with
    | some n2 => some (n1 + n2)
    | none => none

/-- The `re.sub` scan over the document, replacing every non-overlapping
match of the replacement regex by `repl` (the `lambda _: style_tag`
callback). -/
def reSubLinkF (file repl : Str) : Nat → Str → Str
  | 0, _ => []
  | _ + 1, [] => []
  | fuel + 1, c :: cs =>
    match matchLinkSubAt file (c :: cs) with
    | some n => repl ++ reSubLinkF file repl fuel ((c :: cs).drop n)
    | none => c :: reSubLinkF file repl fuel cs

/-- `re.sub(rf'<link.*rel="stylesheet".*href="{css_file}".*>', lambda _: style_tag, html, flags=re.IGNORECASE)`. -/
def reSubLink (file repl s : Str) : Str := reSubLinkF file repl s.length s

/-- Python `str.startswith('http://') or str.startswith('https://')`. -/
def isHttp (url : Str) : Bool :=
  (("http://").toList).isPrefixOf url || (("https://").toList).isPrefixOf url

/-- `inline_css`: for every `href` found by the findall pattern that is not
remote and whose file exists (`fs`), run the font embedder when the CSS has a
`url(...)` reference, build the `<style>` block with its source-origin
comment, and substitute via the permissive replacement regex. -/
def inline_css (fs : Str → Option Str) (fres : Str → Option (Str × List Nat))
    (html : Str) : Str :=
  (findLinkHrefs html).foldl
    (fun doc file =>
      if isHttp file then doc
      else
        match fs file with
        | none => doc
        | some content =>
          reSubLink file
            (("<style>\n/* Content from ").toList ++ file ++ (" */\n ").toList ++
              (if (urlMatches content).isEmpty then content
               else embed_fonts_in_css fres content) ++
              ("\n</style>").toList)
            doc)
    html

/-!
## The final line-by-line scan of `main`

Collaborators: `fetch url = (status, body)` models `urllib3.request("GET", url)`;
`readF path` models `open(path).read()`; `compF path` models
`compress_file(path)` (`some out` = success returning the `.min.js` sibling
path, `none` = tool missing or non-zero exit, in which case the original
path is kept).
-/

/-- The tail of the line regex after the capture: `"` then `\s*` then `>`
then `\s*` then `</script>` (a prefix match; trailing text is ignored). -/
def srcTailOk (t : Str) : Bool :=
  match t with
  | '"' :: t1 =>
    match t1.dropWhile isPySpace with
    | '>' :: t3 => (("</script>").toList).isPrefixOf (t3.dropWhile isPySpace)
    | _ => false
  | _ => false

/-- The greedy `(.*)` capture: the longest newline-free take whose remainder
passes `srcTailOk`. -/
def greedyCapGo (s4 : Str) : Nat → Option Str
  | 0 => if srcTailOk s4 then some [] else none
  | k + 1 =>
    if !(s4.take (k + 1)).contains '\n' && srcTailOk (s4.drop (k + 1)) then
      some (s4.take (k + 1))
    else greedyCapGo s4 k

/-- `re.match(r'\s*<script\s+src="(.*)"\s*>\s*</script>', ln)`: anchored at
the line start, not at its end; returns the `src` capture. -/
def matchScriptSrc (ln : Str) : Option Str :=
  let s1 := ln.dropWhile isPySpace
  if (("<script").toList).isPrefixOf s1 then
    let s2 := s1.drop 7
    if (s2.takeWhile isPySpace).isEmpty then none
    else
      let s3 := s2.dropWhile isPySpace
      if (("src=\"").toList).isPrefixOf s3 then
        greedyCapGo (s3.drop 5) (s3.drop 5).length
      else none
  else none

/-- The loop body of `main`'s final pass: each line either matches the
single-line `<script src=...>` pattern (and is replaced by an inline script
block, or aborts the whole remaining scan on a failed remote fetch) or is
copied through with a newline appended. -/
def scanLines (fetch : Str → Nat × Str) (readF : Str → Str)
    (compF : Str → Option Str) : List Str → Str
  | [] => []
  | ln :: rest =>
    match matchScriptSrc ln with
    | none => ln ++ '\n' :: scanLines fetch readF compF rest
    | some url =>
      if isHttp url then
        if (fetch url).fst = 200 then
          ("<script>\n// Fetched from: ").toList ++ url ++ '\n' :: (fetch url).snd ++
            ("\n</script>\n").toList ++ scanLines fetch readF compF rest
        else []
      else
        ("<script>\n// Read from: ").toList ++
          (if !((".min.js").toList).isSuffixOf url then
            match compF url with
            | some f => f
            | none => url
           else url) ++
          '\n' :: readF
            (if !((".min.js").toList).isSuffixOf url then
              match compF url with
              | some f => f
              | none => url
             else url) ++
          ("\n</script>\n").toList ++ scanLines fetch readF compF rest

/-- `main`: read the entry document, compress inline scripts, inline CSS,
then run the line scan over the result split on newlines; the return value
is the text written to `standalone.html`. -/
def main_output (terser : Option (Str → Option Str)) (fs : Str → Option Str)
    (fres : Str → Option (Str × List Nat)) (fetch : Str → Nat × Str)
    (readF : Str → Str) (compF : Str → Option Str) (input : Str) : Str :=
  scanLines fetch readF compF
    (List.splitOn '\n'
      (inline_css fs fres (compress_inline_js (compress_js terser) input (0, 0)).fst))

/-- The final reduction-percentage expression of the `__main__` block:
`(compressed_size/full_size) * 100 if full_size > 0 else 0`, with real
division modelled in `ℚ`. -/
def reductionPercent (full compressed : Nat) : ℚ :=
  if full > 0 then ((compressed : ℚ) / (full : ℚ)) * 100 else 0

/-!
## Helper lemmas
-/

/-- Fuel irrelevance for the `str.replace` scan: with a non-empty pattern any
fuel at least the length of the text gives the same result. -/
lemma replaceAllF_congr (p r : Str) (hp : p ≠ []) :
    ∀ f1 f2 s, s.length ≤ f1 → s.length ≤ f2 →
      replaceAllF p r f1 s = replaceAllF p r f2 s := by
  intro f1
  induction f1 with
  | zero =>
    intro f2 s h1 _
    have hs : s = [] := List.eq_nil_of_length_eq_zero (Nat.le_zero.mp h1)
    subst hs
    cases f2 <;> rfl
  | succ f1 ih =>
    intro f2 s h1 h2
    cases s with
    | nil => cases f2 <;> rfl
    | cons c cs =>
      cases f2 with
      | zero => simp at h2
      | succ f2 =>
        have hplen : 0 < p.length := List.length_pos.mpr hp
        simp only [replaceAllF]
        by_cases hpre : p.isPrefixOf (c :: cs) = true
        · have hle : p.length ≤ (c :: cs).length :=
            (List.isPrefixOf_iff_prefix.mp hpre).length_le
          simp only [hpre, if_true]
          congr 1
          apply ih
          · simp only [List.length_drop]
            simp only [List.length_cons] at h1 ⊢
            omega
          · simp only [List.length_drop]
            simp only [List.length_cons] at h2 ⊢
            omega
        · simp only [hpre, if_false, Bool.false_eq_true]
          have h1' : cs.length ≤ f1 := by simp only [List.length_cons] at h1; omega
          have h2' : cs.length ≤ f2 := by simp only [List.length_cons] at h2; omega
          rw [ih f2 cs h1' h2']

/-- When the pattern does not occur in the text, `str.replace` is the
identity. -/
lemma replaceAll_of_not_occurs (p r : Str) :
    ∀ s, occursIn p s = false → replaceAll p r s = s := by
  intro s
  induction s with
  | nil =>
    intro h
    simp only [occursIn] at h
    have hp : p ≠ [] := by
      intro e; subst e; simp [List.isPrefixOf] at h
    simp [replaceAll, hp, replaceAllF]
  | cons c cs ih =>
    intro h
    simp only [occursIn, Bool.or_eq_false_iff] at h
    have hp : p ≠ [] := by
      intro e; subst e; simp [List.isPrefixOf] at h
    simp only [replaceAll, if_neg hp] at ih ⊢
    simp only [List.length_cons, replaceAllF, h.1, if_false, Bool.false_eq_true]
    rw [ih h.2]

/-- One scan step of `str.replace` when the head does not start a match. -/
lemma replaceAll_cons_of_not_prefix (p r : Str) (hp : p ≠ []) (x : Char) (s : Str)
    (h : p.isPrefixOf (x :: s) = false) :
    replaceAll p r (x :: s) = x :: replaceAll p r s := by
  simp only [replaceAll, if_neg hp, List.length_cons, replaceAllF, h, if_false,
    Bool.false_eq_true]

/-- One scan step of `str.replace` when the pattern matches at the head. -/
lemma replaceAll_head_match (p r : Str) (hp : p ≠ []) (b : Str) :
    replaceAll p r (p ++ b) = r ++ replaceAll p r b := by
  obtain ⟨c, p', rfl⟩ : ∃ c p', p = c :: p' := by
    cases p with
    | nil => exact absurd rfl hp
    | cons c p' => exact ⟨c, p', rfl⟩
  have hpre : (c :: p').isPrefixOf ((c :: p') ++ b) = true :=
    List.isPrefixOf_iff_prefix.mpr (List.prefix_append _ _)
  simp only [replaceAll, if_neg hp]
  rw [show (c :: p') ++ b = c :: (p' ++ b) from rfl]
  rw [show (c :: (p' ++ b)).length = (p' ++ b).length + 1 from by simp]
  simp only [replaceAllF]
  rw [show c :: (p' ++ b) = (c :: p') ++ b from rfl, hpre]
  simp only [if_true]
  congr 1
  rw [List.drop_left]
  apply replaceAllF_congr _ _ hp
  · simp
  · exact le_rfl

/-- When the first occurrence of the pattern is exactly after the prefix `a`,
`str.replace` substitutes there and continues on the remainder. -/
lemma replaceAll_first_at (p r : Str) (hp : p ≠ []) :
    ∀ (a b : Str),
      (∀ i, i < a.length → p.isPrefixOf ((a ++ (p ++ b)).drop i) = false) →
      replaceAll p r (a ++ (p ++ b)) = a ++ r ++ replaceAll p r b := by
  intro a
  induction a with
  | nil =>
    intro b _
    simpa using replaceAll_head_match p r hp b
  | cons x a' ih =>
    intro b h
    have h0 := h 0 (by simp)
    simp only [List.drop_zero, List.cons_append] at h0
    rw [List.cons_append, replaceAll_cons_of_not_prefix p r hp x _ h0]
    have ih' := ih b (fun i hi => by
      have := h (i + 1) (by simpa using Nat.succ_lt_succ hi)
      simpa [List.cons_append] using this)
    rw [ih']
    simp

/-- Dropping as many elements as `takeWhile` keeps is `dropWhile`. -/
lemma drop_length_takeWhile (pq : Char → Bool) :
    ∀ l : Str, l.drop (l.takeWhile pq).length = l.dropWhile pq := by
  intro l
  induction l with
  | nil => rfl
  | cons c cs ih =>
    by_cases hc : pq c = true
    · simp [List.takeWhile_cons, List.dropWhile_cons, hc, ih]
    · simp [List.takeWhile_cons, List.dropWhile_cons, hc]

/-- When `takeWhile` stops before the end, `dropWhile` starts with an element
falsifying the predicate. -/
lemma dropWhile_head_not (pq : Char → Bool) :
    ∀ l : Str, (l.takeWhile pq).length < l.length →
      ∃ c t, l.dropWhile pq = c :: t ∧ pq c = false := by
  intro l
  induction l with
  | nil => intro h; simp at h
  | cons c cs ih =>
    intro h
    by_cases hc : pq c = true
    · simp only [List.takeWhile_cons, hc, if_true, List.length_cons] at h
      have := ih (by omega)
      simpa [List.dropWhile_cons, hc] using this
    · refine ⟨c, cs, ?_, by simpa using hc⟩
      simp [List.dropWhile_cons, hc]

/-- Splitting a list at a matched prefix. -/
lemma dropPrefix?_some {p s r : Str} (h : dropPrefix? p s = some r) : s = p ++ r := by
  simp only [dropPrefix?] at h
  by_cases hpre : p.isPrefixOf s = true
  · obtain ⟨t, ht⟩ := List.isPrefixOf_iff_prefix.mp hpre
    simp only [hpre, if_true, Option.some.injEq] at h
    subst h
    rw [← ht, List.drop_left]
  · simp [hpre] at h

/-- A matched Boolean prefix splits the list. -/
lemma eq_append_drop_of_isPrefixOf {p s : Str} (h : p.isPrefixOf s = true) :
    s = p ++ s.drop p.length := by
  obtain ⟨t, ht⟩ := List.isPrefixOf_iff_prefix.mp h
  conv_lhs => rw [← ht]
  rw [← ht, List.drop_left]

/-- One inner event in collecting state appends its rendered text to the
buffer and changes nothing else. -/
lemma extStep_inner (B sc : List Str) (e : InnerEv) :
    extStep ⟨true, false, B, sc⟩ e.toEvent = ⟨true, false, B ++ [e.render], sc⟩ := by
  cases e <;> rfl

/-- Collecting state: a run of inner events appends their rendered text to
the buffer and touches nothing else. -/
lemma runExtract_innerEvents (l : List InnerEv) :
    ∀ (B : List Str) (sc : List Str),
      runExtract (l.map InnerEv.toEvent) ⟨true, false, B, sc⟩ =
        ⟨true, false, B ++ l.map InnerEv.render, sc⟩ := by
  induction l with
  | nil => intro B sc; simp [runExtract]
  | cons e es ih =>
    intro B sc
    simp only [List.map_cons, runExtract, List.foldl_cons]
    rw [extStep_inner B sc e]
    have h2 := ih (B ++ [e.render]) sc
    simp only [runExtract] at h2
    rw [h2]
    simp

/-- An event that is no `<script>` tag leaves a non-collecting state alone. -/
lemma extStep_no_change (st : ExtState) (e : HtmlEvent) (hc : st.collect = false)
    (he : isScriptTagEv e = false) : extStep st e = st := by
  cases e with
  | startTag t attrs =>
    simp only [isScriptTagEv, decide_eq_false_iff_not] at he
    simp only [extStep]
    rw [if_neg he]
  | endTag t =>
    simp only [isScriptTagEv, decide_eq_false_iff_not] at he
    simp only [extStep]
    rw [if_neg he]
  | data d => simp [extStep, hc]
  | comment s => simp [extStep, hc]
  | entityref n => simp [extStep, hc]
  | charref n => simp [extStep, hc]

/-- A run of non-`<script>`-tag events leaves a non-collecting state alone. -/
lemma runExtract_no_script (l : List HtmlEvent) :
    ∀ st : ExtState, st.collect = false → (∀ e ∈ l, isScriptTagEv e = false) →
      runExtract l st = st := by
  induction l with
  | nil => intro st _ _; rfl
  | cons e es ih =>
    intro st hc he
    have h1 : extStep st e = st :=
      extStep_no_change st e hc (he e (List.mem_cons_self e es))
    show List.foldl extStep (extStep st e) es = st
    rw [h1]
    exact ih st hc (fun x hx => he x (List.mem_cons_of_mem e hx))

/-- When the callback returns `match.group(0)` on every capture the scan
visits, the `url(...)` substitution is the identity. -/
lemma reSubUrlF_id (f : Str → Str) :
    ∀ fuel (s : Str), s.length ≤ fuel →
      (∀ inner ∈ urlMatchesF fuel s, f inner = ("url(").toList ++ inner ++ [')']) →
      reSubUrlF f fuel s = s := by
  intro fuel
  induction fuel with
  | zero =>
    intro s h _
    have hs : s = [] := List.eq_nil_of_length_eq_zero (Nat.le_zero.mp h)
    subst hs; rfl
  | succ fuel ih =>
    intro s hlen hm
    cases s with
    | nil => rfl
    | cons c cs =>
      by_cases hu : (("url(").toList).isPrefixOf (c :: cs) = true
      · by_cases hcond : ((c :: cs).drop 4).takeWhile (fun x => x ≠ ')') ≠ [] ∧
            (((c :: cs).drop 4).takeWhile (fun x => x ≠ ')')).length < ((c :: cs).drop 4).length
        · have hsplit : (c :: cs) = ("url(").toList ++ (c :: cs).drop 4 :=
            eq_append_drop_of_isPrefixOf hu
          obtain ⟨ch, t, hdw, hch⟩ :=
            dropWhile_head_not (fun x => x ≠ ')') ((c :: cs).drop 4) hcond.2
          have hch' : ch = ')' := by
            simpa [decide_eq_false_iff_not] using hch
          subst hch'
          have hdrop1 : ((c :: cs).drop 4).drop
              ((((c :: cs).drop 4).takeWhile (fun x => x ≠ ')')).length) = ')' :: t := by
            rw [drop_length_takeWhile]; exact hdw
          have hrest2 : (c :: cs).drop 4 =
              ((c :: cs).drop 4).takeWhile (fun x => x ≠ ')') ++ ')' :: t := by
            conv_lhs => rw [← List.takeWhile_append_dropWhile
              (p := fun x => x ≠ ')') (l := (c :: cs).drop 4)]
            rw [hdw]
          have hdropt : ((c :: cs).drop 4).drop
              ((((c :: cs).drop 4).takeWhile (fun x => x ≠ ')')).length + 1) = t := by
            rw [← List.drop_drop, hdrop1]
            rfl
          have hmEq : urlMatchesF (fuel + 1) (c :: cs) =
              ((c :: cs).drop 4).takeWhile (fun x => x ≠ ')') ::
                urlMatchesF fuel (((c :: cs).drop 4).drop
                  ((((c :: cs).drop 4).takeWhile (fun x => x ≠ ')')).length + 1)) := by
            show (if (("url(").toList).isPrefixOf (c :: cs) = true then
                if ((c :: cs).drop 4).takeWhile (fun x => x ≠ ')') ≠ [] ∧
                    (((c :: cs).drop 4).takeWhile (fun x => x ≠ ')')).length <
                      ((c :: cs).drop 4).length then
                  ((c :: cs).drop 4).takeWhile (fun x => x ≠ ')') ::
                    urlMatchesF fuel (((c :: cs).drop 4).drop
                      ((((c :: cs).drop 4).takeWhile (fun x => x ≠ ')')).length + 1))
                else urlMatchesF fuel cs
              else urlMatchesF fuel cs) = _
            rw [if_pos hu, if_pos hcond]
          have hwrap := hm _ (by rw [hmEq]; exact List.mem_cons_self _ _)
          have hlent : t.length ≤ fuel := by
            have h1 : (c :: cs).length =
                4 + ((((c :: cs).drop 4).takeWhile (fun x => x ≠ ')')).length + (1 + t.length)) := by
              conv_lhs => rw [hsplit]
              conv_lhs => rw [hrest2]
              simp only [List.length_append, List.length_cons]
              rw [show (("url(").toList).length = 4 from rfl]
              omega
            simp only [List.length_cons] at hlen h1
            omega
          have htail : ∀ inner ∈ urlMatchesF fuel t, f inner = ("url(").toList ++ inner ++ [')'] := by
            intro inner hin
            refine hm inner ?_
            rw [hmEq, hdropt]
            exact List.mem_cons_of_mem _ hin
          show (if (("url(").toList).isPrefixOf (c :: cs) = true then
              if ((c :: cs).drop 4).takeWhile (fun x => x ≠ ')') ≠ [] ∧
                  (((c :: cs).drop 4).takeWhile (fun x => x ≠ ')')).length <
                    ((c :: cs).drop 4).length then
                f (((c :: cs).drop 4).takeWhile (fun x => x ≠ ')')) ++
                  reSubUrlF f fuel (((c :: cs).drop 4).drop
                    ((((c :: cs).drop 4).takeWhile (fun x => x ≠ ')')).length + 1))
              else c :: reSubUrlF f fuel cs
            else c :: reSubUrlF f fuel cs) = c :: cs
          rw [if_pos hu, if_pos hcond, hwrap, hdropt, ih t hlent htail]
          conv_rhs => rw [hsplit]
          conv_rhs => rw [hrest2]
          simp
        · have hmEq : urlMatchesF (fuel + 1) (c :: cs) = urlMatchesF fuel cs := by
            show (if (("url(").toList).isPrefixOf (c :: cs) = true then
                if ((c :: cs).drop 4).takeWhile (fun x => x ≠ ')') ≠ [] ∧
                    (((c :: cs).drop 4).takeWhile (fun x => x ≠ ')')).length <
                      ((c :: cs).drop 4).length then
                  ((c :: cs).drop 4).takeWhile (fun x => x ≠ ')') ::
                    urlMatchesF fuel (((c :: cs).drop 4).drop
                      ((((c :: cs).drop 4).takeWhile (fun x => x ≠ ')')).length + 1))
                else urlMatchesF fuel cs
              else urlMatchesF fuel cs) = _
            rw [if_pos hu, if_neg hcond]
          show (if (("url(").toList).isPrefixOf (c :: cs) = true then
              if ((c :: cs).drop 4).takeWhile (fun x => x ≠ ')') ≠ [] ∧
                  (((c :: cs).drop 4).takeWhile (fun x => x ≠ ')')).length <
                    ((c :: cs).drop 4).length then
                f (((c :: cs).drop 4).takeWhile (fun x => x ≠ ')')) ++
                  reSubUrlF f fuel (((c :: cs).drop 4).drop
                    ((((c :: cs).drop 4).takeWhile (fun x => x ≠ ')')).length + 1))
              else c :: reSubUrlF f fuel cs
            else c :: reSubUrlF f fuel cs) = c :: cs
          rw [if_pos hu, if_neg hcond]
          have hlen' : cs.length ≤ fuel := by simp only [List.length_cons] at hlen; omega
          rw [ih cs hlen' (by rw [← hmEq]; exact hm)]
      · have hmEq : urlMatchesF (fuel + 1) (c :: cs) = urlMatchesF fuel cs := by
          show (if (("url(").toList).isPrefixOf (c :: cs) = true then
              if ((c :: cs).drop 4).takeWhile (fun x => x ≠ ')') ≠ [] ∧
                  (((c :: cs).drop 4).takeWhile (fun x => x ≠ ')')).length <
                    ((c :: cs).drop 4).length then
                ((c :: cs).drop 4).takeWhile (fun x => x ≠ ')') ::
                  urlMatchesF fuel (((c :: cs).drop 4).drop
                    ((((c :: cs).drop 4).takeWhile (fun x => x ≠ ')')).length + 1))
              else urlMatchesF fuel cs
            else urlMatchesF fuel cs) = _
          rw [if_neg hu]
        show (if (("url(").toList).isPrefixOf (c :: cs) = true then
            if ((c :: cs).drop 4).takeWhile (fun x => x ≠ ')') ≠ [] ∧
                (((c :: cs).drop 4).takeWhile (fun x => x ≠ ')')).length <
                  ((c :: cs).drop 4).length then
              f (((c :: cs).drop 4).takeWhile (fun x => x ≠ ')')) ++
                reSubUrlF f fuel (((c :: cs).drop 4).drop
                  ((((c :: cs).drop 4).takeWhile (fun x => x ≠ ')')).length + 1))
            else c :: reSubUrlF f fuel cs
          else c :: reSubUrlF f fuel cs) = c :: cs
        rw [if_neg hu]
        have hlen' : cs.length ≤ fuel := by simp only [List.length_cons] at hlen; omega
        rw [ih cs hlen' (by rw [← hmEq]; exact hm)]

/-- A successful match of the findall pattern splits the text into the exact
literal fragments of `<link\s+rel="stylesheet"\s+href="([^"]+)"`. -/
lemma matchLinkAt_some {s cap rest : Str} (h : matchLinkAt s = some (cap, rest)) :
    ∃ w1 w2, s = ("<link").toList ++ w1 ++ ("rel=\"stylesheet\"").toList ++ w2 ++
        ("href=\"").toList ++ cap ++ '"' :: rest ∧
      w1 ≠ [] ∧ w2 ≠ [] ∧ (∀ ch ∈ w1, isPySpace ch = true) ∧
      (∀ ch ∈ w2, isPySpace ch = true) ∧ cap ≠ [] := by
  unfold matchLinkAt at h
  cases h1 : dropPrefix? (("<link").toList) s with
  | none => rw [h1] at h; simp at h
  | some r1 =>
    rw [h1] at h
    by_cases hw1 : (r1.takeWhile isPySpace).isEmpty = true
    · simp only [hw1, if_true] at h; simp at h
    · simp only [hw1, if_false, Bool.false_eq_true] at h
      cases h2 : dropPrefix? (("rel=\"stylesheet\"").toList) (r1.dropWhile isPySpace) with
      | none => rw [h2] at h; simp at h
      | some r2 =>
        rw [h2] at h
        by_cases hw2 : (r2.takeWhile isPySpace).isEmpty = true
        · simp only [hw2, if_true] at h; simp at h
        · simp only [hw2, if_false, Bool.false_eq_true] at h
          cases h3 : dropPrefix? (("href=\"").toList) (r2.dropWhile isPySpace) with
          | none => rw [h3] at h; simp at h
          | some r3 =>
            rw [h3] at h
            by_cases hc1 : (r3.takeWhile (fun c => c ≠ '"')).isEmpty = true
            · simp only [hc1, if_true] at h; simp at h
            · simp only [hc1, if_false, Bool.false_eq_true] at h
              by_cases hc2 : (r3.takeWhile (fun c => c ≠ '"')).length < r3.length
              · simp only [hc2, if_true, Option.some.injEq, Prod.mk.injEq] at h
                obtain ⟨hcap, hrest⟩ := h
                obtain ⟨ch, t, hdw, hch⟩ := dropWhile_head_not (fun c => c ≠ '"') r3 hc2
                have hch' : ch = '"' := by simpa [decide_eq_false_iff_not] using hch
                subst hch'
                have hr3 : r3 = r3.takeWhile (fun c => c ≠ '"') ++ '"' :: t := by
                  conv_lhs => rw [← List.takeWhile_append_dropWhile
                    (p := fun c => c ≠ '"') (l := r3)]
                  rw [hdw]
                have hrt : rest = t := by
                  rw [← hrest, ← List.drop_drop, drop_length_takeWhile, hdw]
                  rfl
                refine ⟨r1.takeWhile isPySpace, r2.takeWhile isPySpace, ?_, ?_, ?_, ?_, ?_, ?_⟩
                · have e1 := dropPrefix?_some h1
                  have e2 := dropPrefix?_some h2
                  have e3 := dropPrefix?_some h3
                  rw [e1]
                  conv_lhs => rw [← List.takeWhile_append_dropWhile (p := isPySpace) (l := r1)]
                  rw [e2]
                  conv_lhs => rw [← List.takeWhile_append_dropWhile (p := isPySpace) (l := r2)]
                  rw [e3]
                  conv_lhs => rw [hr3]
                  rw [← hcap, hrt]
                  simp [List.append_assoc]
                · intro e; rw [e] at hw1; simp at hw1
                · intro e; rw [e] at hw2; simp at hw2
                · intro ch hch2; exact List.mem_takeWhile_imp hch2
                · intro ch hch2; exact List.mem_takeWhile_imp hch2
                · intro e; rw [← hcap] at e; rw [e] at hc1; simp at hc1
              · simp only [hc2, if_false] at h; simp at h

/-- Every `href` the findall scan returns comes from a literal
`<link` + whitespace + `rel="stylesheet"` + whitespace + `href="..."`
occurrence: the find step demands exactly that attribute order and case. -/
lemma findLinkHrefsF_decomp :
    ∀ fuel (s : Str) (file : Str), s.length ≤ fuel → file ∈ findLinkHrefsF fuel s →
      ∃ x w1 w2 y, s = x ++ ("<link").toList ++ w1 ++ ("rel=\"stylesheet\"").toList ++ w2 ++
          ("href=\"").toList ++ file ++ '"' :: y ∧
        w1 ≠ [] ∧ w2 ≠ [] ∧ (∀ ch ∈ w1, isPySpace ch = true) ∧
        (∀ ch ∈ w2, isPySpace ch = true) := by
  intro fuel
  induction fuel with
  | zero =>
    intro s file hlen hmem
    have hs : s = [] := List.eq_nil_of_length_eq_zero (Nat.le_zero.mp hlen)
    subst hs
    simp [findLinkHrefsF] at hmem
  | succ fuel ih =>
    intro s file hlen hmem
    cases s with
    | nil => simp [findLinkHrefsF] at hmem
    | cons c cs =>
      cases hma : matchLinkAt (c :: cs) with
      | none =>
        have hmem' : file ∈ findLinkHrefsF fuel cs := by
          simpa [findLinkHrefsF, hma] using hmem
        have hlen' : cs.length ≤ fuel := by simp only [List.length_cons] at hlen; omega
        obtain ⟨x, w1, w2, y, hs, hn1, hn2, hp1, hp2⟩ := ih cs file hlen' hmem'
        exact ⟨c :: x, w1, w2, y, by rw [hs]; simp [List.append_assoc], hn1, hn2, hp1, hp2⟩
      | some pr =>
        obtain ⟨cap, rest⟩ := pr
        obtain ⟨w1, w2, hs, hn1, hn2, hp1, hp2, hcap⟩ := matchLinkAt_some hma
        have hmem' : file = cap ∨ file ∈ findLinkHrefsF fuel rest := by
          simpa [findLinkHrefsF, hma] using hmem
        cases hmem' with
        | inl heq =>
          subst heq
          exact ⟨[], w1, w2, rest, by simpa using hs, hn1, hn2, hp1, hp2⟩
        | inr hmem2 =>
          have hrl : rest.length ≤ fuel := by
            have hlc := congrArg List.length hs
            simp only [List.length_cons, List.length_append] at hlc
            rw [show (("<link").toList).length = 5 from rfl] at hlc
            simp only [List.length_cons] at hlen
            omega
          obtain ⟨x, w1', w2', y, hsr, hn1', hn2', hp1', hp2'⟩ := ih rest file hrl hmem2
          refine ⟨("<link").toList ++ w1 ++ ("rel=\"stylesheet\"").toList ++ w2 ++
            ("href=\"").toList ++ cap ++ '"' :: x, w1', w2', y, ?_, hn1', hn2', hp1', hp2'⟩
          rw [hs, hsr]
          simp [List.append_assoc]

/-- With the compressor unavailable, `compress_js` is the identity, so the
inline-compression loop changes neither the document nor the ledger. -/
lemma compress_inline_js_id (html : Str) (ledger : Nat × Nat) :
    compress_inline_js (compress_js none) html ledger = (html, ledger) := by
  unfold compress_inline_js
  generalize extractScripts html = L
  induction L with
  | nil => rfl
  | cons a L ih =>
    simp only [List.foldl_cons]
    have hstep : (if compress_js none a ≠ a then
        (replaceAll a (compress_js none a) (html, ledger).fst,
         ((html, ledger).snd.fst + a.length,
          (html, ledger).snd.snd + (compress_js none a).length))
      else (html, ledger)) = (html, ledger) := by
      simp [compress_js]
    rw [hstep]
    exact ih

/-!
## Claim theorems
-/

/-- C4: when the external compressor tool is unavailable or exits non-zero,
`compress_js` returns exactly the original string, and the
`(full_size, compressed_size)` ledger is not incremented for that script. -/
theorem c4_compress_fallback :
    (∀ s : Str, compress_js none s = s) ∧
    (∀ (run : Str → Option Str) (s : Str), run s = none → compress_js (some run) s = s) ∧
    (∀ (html : Str) (ledger : Nat × Nat),
      compress_inline_js (compress_js none) html ledger = (html, ledger)) :=
  ⟨fun _ => rfl,
   fun run s h => by simp [compress_js, h],
   fun html ledger => compress_inline_js_id html ledger⟩

/-- C4 witness: a run with a non-zero exit leaves the script unchanged, and an
unavailable tool leaves a concrete document and ledger unchanged. -/
theorem c4_witness :
    compress_js (some (fun _ => none)) (("x=1").toList) = ("x=1").toList ∧
    compress_inline_js (compress_js none) (("<p>hi</p>").toList) (3, 4) =
      ((("<p>hi</p>").toList), (3, 4)) :=
  ⟨c4_compress_fallback.2.1 (fun _ => none) (("x=1").toList) rfl,
   c4_compress_fallback.2.2 (("<p>hi</p>").toList) (3, 4)⟩

/-- C9: the reported reduction ratio is 0 when no original bytes were
processed, and `(compressed / full) * 100` otherwise. -/
theorem c9_reduction_ratio_guard :
    (∀ compressed : Nat, reductionPercent 0 compressed = 0) ∧
    (∀ full compressed : Nat, 0 < full →
      reductionPercent full compressed = ((compressed : ℚ) / (full : ℚ)) * 100) := by
  constructor
  · intro c; simp [reductionPercent]
  · intro f c h; simp [reductionPercent, h]

/-- C9 witness at a concrete ledger. -/
theorem c9_witness : 0 < 4 ∧ reductionPercent 4 2 = ((2 : ℚ) / (4 : ℚ)) * 100 :=
  ⟨by norm_num, c9_reduction_ratio_guard.2 4 2 (by norm_num)⟩

/-- C10: a line matching the single-line `<script src="...">` pattern is
replaced whole: the scan's output depends only on the captured URL, so any
characters of the line beyond the matched part (in particular everything
after the closing `</script>`) are discarded and never written. -/
theorem c10_matched_line_replaced_whole (fetch : Str → Nat × Str) (readF : Str → Str)
    (compF : Str → Option Str) (ln₁ ln₂ : Str) (rest : List Str) (url : Str)
    (h1 : matchScriptSrc ln₁ = some url) (h2 : matchScriptSrc ln₂ = some url) :
    scanLines fetch readF compF (ln₁ :: rest) = scanLines fetch readF compF (ln₂ :: rest) := by
  simp only [scanLines, h1, h2]

/-- C10 witness: a line with trailing junk after `</script>` produces exactly
the output of the junk-free line. -/
theorem c10_witness :
    matchScriptSrc (("  <script src=\"a.js\"></script><b>junk").toList) =
      some (("a.js").toList) ∧
    scanLines (fun _ => (200, [])) (fun _ => ("JS").toList) (fun _ => none)
        ((("  <script src=\"a.js\"></script><b>junk").toList) :: [("next").toList]) =
      scanLines (fun _ => (200, [])) (fun _ => ("JS").toList) (fun _ => none)
        ((("<script src=\"a.js\"></script>").toList) :: [("next").toList]) :=
  ⟨by decide,
   c10_matched_line_replaced_whole _ _ _ _ _ _ (("a.js").toList) (by decide) (by decide)⟩

/-- C5: when a remote fetch returns a non-200 status, the scan aborts: the
output is exactly the output for the lines before the failing line, and no
later line is ever written. -/
theorem c5_remote_fetch_abort (fetch : Str → Nat × Str) (readF : Str → Str)
    (compF : Str → Option Str) (pre post : List Str) (ln url : Str)
    (hm : matchScriptSrc ln = some url) (hh : isHttp url = true)
    (hs : (fetch url).fst ≠ 200) :
    scanLines fetch readF compF (pre ++ ln :: post) = scanLines fetch readF compF pre := by
  induction pre with
  | nil =>
    simp only [List.nil_append, scanLines, hm, hh, if_true]
    rw [if_neg hs]
  | cons q qs ih =>
    cases hq : matchScriptSrc q with
    | none =>
      simp only [List.cons_append, scanLines, hq, List.append_eq]
      rw [ih]
    | some u =>
      simp only [List.cons_append, scanLines, hq, List.append_eq]
      by_cases hu : isHttp u = true
      · by_cases hf : (fetch u).fst = 200
        · simp only [hu, if_true, hf, List.append_eq, ih]
        · simp only [hu, if_true]
          rw [if_neg hf, if_neg hf]
      · simp only [hu, Bool.false_eq_true, if_false, List.append_eq, ih]

/-- C5 witness: a 404 on the middle line truncates the output to the lines
before it. -/
theorem c5_witness :
    matchScriptSrc (("<script src=\"https://e/a.js\"></script>").toList) =
      some (("https://e/a.js").toList) ∧
    scanLines (fun _ => (404, [])) (fun _ => []) (fun _ => none)
        ([("<p>a</p>").toList] ++ (("<script src=\"https://e/a.js\"></script>").toList) ::
          [("<p>b</p>").toList]) =
      scanLines (fun _ => (404, [])) (fun _ => []) (fun _ => none) [("<p>a</p>").toList] :=
  ⟨by decide,
   c5_remote_fetch_abort _ _ _ _ _ _ (("https://e/a.js").toList) (by decide) (by decide)
     (by decide)⟩

/-- C7: an inline `<script>` element with no `src` attribute, whose inner
markup mixes text, a comment and entity or numeric character references,
contributes exactly the byte-for-byte reconstruction of that inner markup
(comments re-wrapped as `<!--...-->`, entity references as `&name;`,
character references as `&#code;`) to the extracted scripts, from any
starting state. -/
theorem c7_extraction_fidelity (st : ExtState) (attrs : List (Str × Option Str))
    (inner : List InnerEv) (h : hasSrcAttr attrs = false) :
    (runExtract (HtmlEvent.startTag (("script").toList) attrs ::
        (inner.map InnerEv.toEvent ++ [HtmlEvent.endTag (("script").toList)])) st).scripts =
      st.scripts ++ [(inner.map InnerEv.render).flatten] := by
  have hstart : extStep st (HtmlEvent.startTag (("script").toList) attrs) =
      ⟨true, false, [], st.scripts⟩ := by
    simp only [extStep]
    rw [if_pos (show lowerStr (("script").toList) = ("script").toList from by decide)]
    rw [if_neg (show ¬ hasSrcAttr attrs = true from by simp [h])]
  show (List.foldl extStep st _).scripts = _
  rw [List.foldl_cons, hstart, List.foldl_append]
  have hinner := runExtract_innerEvents inner [] st.scripts
  simp only [runExtract, List.nil_append] at hinner
  rw [hinner]
  simp only [List.foldl_cons, List.foldl_nil]
  have hend : extStep ⟨true, false, inner.map InnerEv.render, st.scripts⟩
      (HtmlEvent.endTag (("script").toList)) =
      ⟨false, false, [], st.scripts ++ [(inner.map InnerEv.render).flatten]⟩ := by
    simp only [extStep]
    rw [if_pos (show lowerStr (("script").toList) = ("script").toList from by decide)]
    simp
  rw [hend]

/-- C7 witness: a concrete inline script whose body mixes text, a comment,
an entity reference and a numeric character reference is captured exactly. -/
theorem c7_witness :
    hasSrcAttr ([] : List (Str × Option Str)) = false ∧
    (runExtract (HtmlEvent.startTag (("script").toList) [] ::
        (([InnerEv.text (("a;").toList), InnerEv.comment ((" note ").toList),
           InnerEv.entity (("amp").toList), InnerEv.charref (("65").toList)].map
             InnerEv.toEvent) ++
          [HtmlEvent.endTag (("script").toList)])) extInit).scripts =
      extInit.scripts ++
        [(([InnerEv.text (("a;").toList), InnerEv.comment ((" note ").toList),
           InnerEv.entity (("amp").toList), InnerEv.charref (("65").toList)]).map
             InnerEv.render).flatten] :=
  ⟨by decide, c7_extraction_fidelity extInit [] _ (by decide)⟩

/-- C8: a `<script>` element carrying a `src` attribute never contributes an
entry to the extracted inline-script sequence, with or without stray inner
content, from any starting state. -/
theorem c8_src_exclusion (st : ExtState) (attrs : List (Str × Option Str))
    (inner : List HtmlEvent) (h : hasSrcAttr attrs = true)
    (hi : ∀ e ∈ inner, isScriptTagEv e = false) :
    (runExtract (HtmlEvent.startTag (("script").toList) attrs ::
        (inner ++ [HtmlEvent.endTag (("script").toList)])) st).scripts = st.scripts := by
  have hstart : extStep st (HtmlEvent.startTag (("script").toList) attrs) =
      { st with hasSrc := true, collect := false } := by
    simp only [extStep]
    rw [if_pos (show lowerStr (("script").toList) = ("script").toList from by decide)]
    rw [if_pos h]
  show (List.foldl extStep st _).scripts = _
  rw [List.foldl_cons, hstart, List.foldl_append]
  have hmid := runExtract_no_script inner { st with hasSrc := true, collect := false } rfl hi
  simp only [runExtract] at hmid
  rw [hmid]
  simp only [List.foldl_cons, List.foldl_nil]
  have hend : extStep { st with hasSrc := true, collect := false }
      (HtmlEvent.endTag (("script").toList)) = ⟨false, false, [], st.scripts⟩ := by
    simp only [extStep]
    rw [if_pos (show lowerStr (("script").toList) = ("script").toList from by decide)]
    simp
  rw [hend]

/-- C8 witness: a `src`-bearing script with stray inner text contributes
nothing. -/
theorem c8_witness :
    hasSrcAttr [((("SRC").toList), some (("x.js").toList))] = true ∧
    (runExtract (HtmlEvent.startTag (("script").toList)
        [((("SRC").toList), some (("x.js").toList))] ::
        ([HtmlEvent.data (("stray text").toList)] ++
          [HtmlEvent.endTag (("script").toList)])) extInit).scripts = extInit.scripts :=
  ⟨by decide, c8_src_exclusion extInit _ _ (by decide) (by decide)⟩

/-- C6: the font embedder is the identity on CSS whose `url(...)` captures
all target `data:` URIs (after quote and query stripping), whatever the
filesystem contains. -/
theorem c6_font_embedding_idempotent (resolve : Str → Option (Str × List Nat)) (css : Str)
    (h : ∀ inner ∈ urlMatches css,
      (("data:").toList).isPrefixOf (stripQuery (stripQuotes inner)) = true) :
    embed_fonts_in_css resolve css = css := by
  apply reSubUrlF_id _ _ _ le_rfl
  intro inner hin
  have hd := h inner hin
  simp only [replace_font_url, hd, if_true]

/-- C6 witness: CSS whose only `url(...)` is already a `data:` URI passes
through unchanged. -/
theorem c6_witness :
    (∀ inner ∈ urlMatches (("a\x7bsrc:url(data:font/woff2;base64,AA==)\x7d").toList),
      (("data:").toList).isPrefixOf (stripQuery (stripQuotes inner)) = true) ∧
    embed_fonts_in_css (fun _ => none)
        (("a\x7bsrc:url(data:font/woff2;base64,AA==)\x7d").toList) =
      ("a\x7bsrc:url(data:font/woff2;base64,AA==)\x7d").toList :=
  ⟨by decide, c6_font_embedding_idempotent (fun _ => none) _ (by decide)⟩

/-- C1 counterexample: on a document where an inline script body also occurs
earlier as plain text, the code (all-occurrence `str.replace`) produces a
different document than the spec's first-occurrence-only substitution. -/
theorem c1_counterexample :
    (compress_inline_js (fun s => if s = ("x=1").toList then ("y").toList else s)
        (("<p>x=1</p><script>x=1</script>").toList) (0, 0)).fst ≠
      (compress_inline_js_specFirstOnly
        (fun s => if s = ("x=1").toList then ("y").toList else s)
        (("<p>x=1</p><script>x=1</script>").toList) (0, 0)).fst := by decide

/-- C1 amended: when the compressed body differs from the original, one loop
iteration replaces *every* non-overlapping textual occurrence of the original
body in the document (Python `str.replace` semantics), not only the first:
for a document with two textual occurrences of the single extracted script
body, both are replaced. -/
theorem c1_amended_replaces_all_occurrences (compress : Str → Str) (a b c s : Str)
    (hs : s ≠ [])
    (hx : extractScripts (a ++ s ++ b ++ s ++ c) = [s])
    (hc : compress s ≠ s)
    (ha : ∀ i, i < a.length → s.isPrefixOf ((a ++ s ++ b ++ s ++ c).drop i) = false)
    (hb : ∀ i, i < b.length → s.isPrefixOf ((b ++ s ++ c).drop i) = false)
    (hcc : occursIn s c = false) :
    (compress_inline_js compress (a ++ s ++ b ++ s ++ c) (0, 0)).fst =
      a ++ compress s ++ b ++ compress s ++ c := by
  unfold compress_inline_js
  rw [hx]
  simp only [List.foldl_cons, List.foldl_nil]
  rw [if_pos hc]
  show replaceAll s (compress s) (a ++ s ++ b ++ s ++ c) = _
  have e1 : a ++ s ++ b ++ s ++ c = a ++ (s ++ (b ++ (s ++ c))) := by
    simp [List.append_assoc]
  rw [e1]
  rw [replaceAll_first_at s (compress s) hs a (b ++ (s ++ c))
    (fun i hi => by simpa [List.append_assoc] using ha i hi)]
  rw [show b ++ (s ++ c) = b ++ (s ++ c) from rfl]
  rw [replaceAll_first_at s (compress s) hs b c
    (fun i hi => by simpa [List.append_assoc] using hb i hi)]
  rw [replaceAll_of_not_occurs s (compress s) c hcc]
  simp [List.append_assoc]

/-- C1 witness: both textual occurrences of the script body are replaced in
the concrete counterexample document. -/
theorem c1_witness :
    (("x=1").toList ≠ ([] : Str)) ∧
    (compress_inline_js (fun s => if s = ("x=1").toList then ("y").toList else s)
        ((("<p>").toList) ++ ("x=1").toList ++ ("</p><script>").toList ++
          ("x=1").toList ++ ("</script>").toList) (0, 0)).fst =
      ("<p>").toList ++ ("y").toList ++ ("</p><script>").toList ++
        ("y").toList ++ ("</script>").toList :=
  ⟨by decide,
   c1_amended_replaces_all_occurrences _ _ _ _ _ (by decide) (by decide) (by decide)
     (by decide) (by decide) (by decide)⟩

/-- C2 counterexample: for Scenario A's document with no compressor
available, the output file is not byte-identical to the input. -/
theorem c2_counterexample :
    main_output none (fun _ => none) (fun _ => none) (fun _ => (404, []))
        (fun _ => []) (fun _ => none)
        (("<html><script>alert(1)</script></html>").toList) ≠
      ("<html><script>alert(1)</script></html>").toList := by decide

/-- C2 amended: for Scenario A's document with no compressor available, the
output is the input with a single trailing newline appended (the line writer
emits `line + '\n'` for every line), for every remaining collaborator. -/
theorem c2_amended_output_appends_newline (fs : Str → Option Str)
    (fres : Str → Option (Str × List Nat)) (fetch : Str → Nat × Str)
    (readF : Str → Str) (compF : Str → Option Str) :
    main_output none fs fres fetch readF compF
        (("<html><script>alert(1)</script></html>").toList) =
      ("<html><script>alert(1)</script></html>").toList ++ ['\n'] := by
  unfold main_output
  rw [show (compress_inline_js (compress_js none)
      (("<html><script>alert(1)</script></html>").toList) (0, 0)).fst =
      ("<html><script>alert(1)</script></html>").toList from by
    rw [compress_inline_js_id]]
  rw [show inline_css fs fres (("<html><script>alert(1)</script></html>").toList) =
      ("<html><script>alert(1)</script></html>").toList from by
    unfold inline_css
    rw [show findLinkHrefs (("<html><script>alert(1)</script></html>").toList) = []
      from by decide]
    simp only [List.foldl_nil]]
  rw [show List.splitOn '\n' (("<html><script>alert(1)</script></html>").toList) =
      [("<html><script>alert(1)</script></html>").toList] from by decide]
  simp only [scanLines,
    show matchScriptSrc (("<html><script>alert(1)</script></html>").toList) = none
      from by decide]

/-- C3 counterexample: a stylesheet link written with `href` before `rel` is
not found by the inliner even though the file exists, so nothing is
replaced. -/
theorem c3_counterexample :
    inline_css (fun p => if p = ("style.css").toList then some (("body").toList) else none)
        (fun _ => none)
        (("<html><link href=\"style.css\" rel=\"stylesheet\"></html>").toList) =
      (("<html><link href=\"style.css\" rel=\"stylesheet\"></html>").toList) ∧
    findLinkHrefs
        (("<html><link href=\"style.css\" rel=\"stylesheet\"></html>").toList) = [] :=
  ⟨by decide, by decide⟩

/-- C3 amended: the find step is strict, not permissive: every `href` it
finds comes from a literal lowercase `<link` + whitespace +
`rel="stylesheet"` + whitespace + `href="..."` occurrence, in exactly that
attribute order and case; and when the find step finds nothing, the inliner
leaves the document unchanged.  (Only the subsequent replacement regex is
permissive about case and intervening text.) -/
theorem c3_amended_find_is_strict (doc file : Str) (fs : Str → Option Str)
    (fres : Str → Option (Str × List Nat)) :
    (file ∈ findLinkHrefs doc →
      ∃ x w1 w2 y, doc = x ++ ("<link").toList ++ w1 ++
          ("rel=\"stylesheet\"").toList ++ w2 ++ ("href=\"").toList ++ file ++ '"' :: y ∧
        w1 ≠ [] ∧ w2 ≠ [] ∧ (∀ ch ∈ w1, isPySpace ch = true) ∧
        (∀ ch ∈ w2, isPySpace ch = true)) ∧
    (findLinkHrefs doc = [] → inline_css fs fres doc = doc) := by
  constructor
  · intro hmem
    exact findLinkHrefsF_decomp doc.length doc file le_rfl hmem
  · intro hnone
    unfold inline_css
    rw [hnone]
    simp only [List.foldl_nil]

/-- C3 witness: the canonical tag is found and decomposes as the strict
pattern demands, and a document with no strict match passes through the
inliner unchanged. -/
theorem c3_witness :
    ((("s.css").toList ∈ findLinkHrefs (("<link rel=\"stylesheet\" href=\"s.css\">").toList)) ∧
      ∃ x w1 w2 y, (("<link rel=\"stylesheet\" href=\"s.css\">").toList) =
          x ++ ("<link").toList ++ w1 ++ ("rel=\"stylesheet\"").toList ++ w2 ++
            ("href=\"").toList ++ ("s.css").toList ++ '"' :: y ∧
        w1 ≠ [] ∧ w2 ≠ [] ∧ (∀ ch ∈ w1, isPySpace ch = true) ∧
        (∀ ch ∈ w2, isPySpace ch = true)) ∧
    (findLinkHrefs (("<p>hi</p>").toList) = [] ∧
      inline_css (fun _ => none) (fun _ => none) (("<p>hi</p>").toList) =
        ("<p>hi</p>").toList) :=
  ⟨⟨by decide,
    (c3_amended_find_is_strict (("<link rel=\"stylesheet\" href=\"s.css\">").toList)
      (("s.css").toList) (fun _ => none) (fun _ => none)).1 (by decide)⟩,
   ⟨by decide,
    (c3_amended_find_is_strict (("<p>hi</p>").toList) (("s.css").toList)
      (fun _ => none) (fun _ => none)).2 (by decide)⟩⟩
